import Mathlib

/-!
Verification of the `futures-buffered` prototype (`src/lib.rs`).

The development is a shallow embedding of the single-threaded (sequential)
semantics of the code.  The source guards its sparse-set arrays with a
claim bit (`MASK`) inside the `len` word and a compare-and-swap retry loop;
in sequential execution every `compare_exchange_weak` succeeds on its first
attempt with the claim bit clear (the bit is never left set between
operations), so each operation's loop body runs exactly once.  The
definitions below are the one-iteration unfoldings of those loops; all
states considered by the claims have the claim bit clear.

Machine integers (`usize`) are modelled as `Nat`; the only bitwise
operation the code performs is the fast-path test `sparse < (len & !MASK)`,
which is embedded literally with a 64-bit complement.

Futures are external collaborators; a future stored in a slot is modelled
by the outcome its `poll` call produces during the driver call under
consideration (`Poll.ready x` or `Poll.pending`).  A pending future stays
in its slot; its later wake-ups arrive through the bridging `InnerWaker`,
which is modelled separately.  The driver loop of `poll_next` additionally
records a trace of the events it performs (pops, skips, polls) so that
claims about the order of operations inside one call can be stated.
-/

namespace FuturesBuffered

/-- Capacity constant from the source: `const BATCH: usize = 10;`. -/
def BATCH : Nat := 10

/-- Claim-bit constant from the source:
`const MASK: usize = (BATCH + 1).next_power_of_two();` (= 16). -/
def MASK : Nat := Nat.nextPowerOfTwo (BATCH + 1)

/-- The 64-bit `usize` complement `!MASK` used by the fast-path test
`sparse < (len & !MASK)`.  Since `MASK = 16 < 2^64`, `!MASK = 2^64 - 1 - MASK
= 2^64 - 17`; the literal form is used so the kernel can evaluate it
(`Nat.nextPowerOfTwo` is a well-founded definition), and `notMASK_eq`
below proves it equal to the complement of `MASK`. -/
def notMASK : Nat := 2 ^ 64 - 17

/-- State of `AtomicSparseSet`.  The `dense` and `sparse` arrays
(`[AtomicUsize; BATCH]`, default-initialised to zero) are modelled as
lists of naturals of length `BATCH`; `len` is the `len: AtomicUsize`
word.  In every state the claims quantify over, the claim bit of `len`
is clear, i.e. `len` is just the count of live entries. -/
structure AtomicSparseSet where
  dense : List Nat
  sparse : List Nat
  len : Nat
deriving DecidableEq

/-- The state produced by `AtomicSparseSet::default()`: both arrays all
zero (`AtomicUsize` defaults to 0) and `len = 0`. -/
def AtomicSparseSet.init : AtomicSparseSet :=
  ⟨List.replicate BATCH 0, List.replicate BATCH 0, 0⟩

/-- Sequential semantics of `AtomicSparseSet::push` (source lines 30-69).

Step by step, mirroring the source:
* `if x >= BATCH { return; }` — defensive bound check;
* load `len`, then the fast path loads `sparse[x]` and `dense[sparse]`
  and returns if `sparse < (len & !MASK) && dense == x`;
* otherwise the CAS loop claims the word.  Sequentially the CAS succeeds
  at once, returning the old `len`:
  * branch `Ok(len) if len == BATCH`: store `len = 0` and return
    (the overflow reset — the arrays are untouched);
  * branch `Ok(len) if len & MASK == 0`: store `sparse[x] = len`,
    `dense[len] = x`, and `len = len + 1`.  With the claim bit clear the
    loaded `len` always satisfies `len & MASK == 0`, so sequentially this
    branch is taken whenever `len ≠ BATCH`. -/
def AtomicSparseSet.push (s : AtomicSparseSet) (x : Nat) : AtomicSparseSet :=
  if BATCH ≤ x then s
  else
    let len := s.len
    let sp := s.sparse.getD x 0
    let d := s.dense.getD sp 0
    if sp < (len &&& notMASK) ∧ d = x then s
    else if len = BATCH then ⟨s.dense, s.sparse, 0⟩
    else ⟨s.dense.set len x, s.sparse.set x len, len + 1⟩

/-- Sequential semantics of `AtomicSparseSet::pop` (source lines 70-97).

Sequentially the CAS succeeds at once with the claim bit clear:
* branch `Ok(len) if len == 0`: store `len = 0` (a no-op) and return `None`;
* branch `Ok(len) if len & MASK == 0` (always taken sequentially when
  `len ≠ 0`): read `x = dense[len - 1]`, store `len = len - 1`, return
  `Some x`. -/
def AtomicSparseSet.pop (s : AtomicSparseSet) : Option Nat × AtomicSparseSet :=
  if s.len = 0 then (none, s)
  else (some (s.dense.getD (s.len - 1) 0), ⟨s.dense, s.sparse, s.len - 1⟩)

/-- Sequentially reachable states of the sparse set: the default state,
closed under `push` and `pop`. -/
inductive AtomicSparseSet.Reachable : AtomicSparseSet → Prop
  | init : AtomicSparseSet.Reachable AtomicSparseSet.init
  | push (s : AtomicSparseSet) (x : Nat) :
      AtomicSparseSet.Reachable s → AtomicSparseSet.Reachable (s.push x)
  | pop (s : AtomicSparseSet) :
      AtomicSparseSet.Reachable s → AtomicSparseSet.Reachable s.pop.2

/-- Structural well-formedness of a sparse-set state: correct array
lengths, `len` within capacity, all stored values below `BATCH`, and
every live entry's `sparse` cache pointing back at its `dense` position. -/
def AtomicSparseSet.WF (s : AtomicSparseSet) : Prop :=
  s.dense.length = BATCH ∧ s.sparse.length = BATCH ∧ s.len ≤ BATCH ∧
  (∀ j, j < BATCH → s.dense.getD j 0 < BATCH) ∧
  (∀ j, j < BATCH → s.sparse.getD j 0 < BATCH) ∧
  (∀ j, j < s.len → s.sparse.getD (s.dense.getD j 0) 0 = j)

instance (s : AtomicSparseSet) : Decidable s.WF := by
  unfold AtomicSparseSet.WF
  infer_instance

/-- The fast-path condition of `push` for index `x` in state `s`
(source line 40: `sparse < (len & !MASK) && dense == x`). -/
def AtomicSparseSet.FastPath (s : AtomicSparseSet) (x : Nat) : Prop :=
  s.sparse.getD x 0 < (s.len &&& notMASK) ∧ s.dense.getD (s.sparse.getD x 0) 0 = x

instance (s : AtomicSparseSet) (x : Nat) : Decidable (s.FastPath x) := by
  unfold AtomicSparseSet.FastPath
  infer_instance

/-- Outcome of polling a future, mirroring `std::task::Poll`. -/
inductive Poll (α : Type) where
  | ready (x : α)
  | pending
deriving DecidableEq

/-- State of `ConcurrentProcessQueue<F>`: the `inner: [Option<F>; BATCH]`
slot array (as a list of length `BATCH`) and the shared
`sparse: Arc<AtomicSparseSet>` ready set. -/
structure ConcurrentProcessQueue (F : Type) where
  inner : List (Option F)
  sparse : AtomicSparseSet
deriving DecidableEq

/-- Embedding of `ConcurrentProcessQueue::new` (source lines 101-106): `BATCH` empty
slots and a default ready set. -/
def ConcurrentProcessQueue.new (F : Type) : ConcurrentProcessQueue F :=
  ⟨List.replicate BATCH none, AtomicSparseSet.init⟩

/-- Index of the first `none` entry of a slot list, mirroring the scan
`for (i, x) in self.inner.iter_mut().enumerate() { if x.is_none() { ... } }`
of `ConcurrentProcessQueue::push`. -/
def firstNoneIdx {F : Type} : List (Option F) → Option Nat
  | [] => none
  | x :: xs => if x.isNone then some 0 else (firstNoneIdx xs).map (· + 1)

/-- Embedding of `ConcurrentProcessQueue::push` (source lines 107-115): store the task
in the first empty slot and mark that slot ready; if every slot is
occupied the loop finds nothing and the call returns with no effect
(the function returns `()` in the source — the caller gets no signal). -/
def ConcurrentProcessQueue.push {F : Type} (q : ConcurrentProcessQueue F) (fut : F) :
    ConcurrentProcessQueue F :=
  match firstNoneIdx q.inner with
  | some i => ⟨q.inner.set i (some fut), q.sparse.push i⟩
  | none => q

/-- Events recorded while the driver loop of `poll_next` runs:
`popped i` — `sparse.pop()` returned `Some(i)`;
`skipped i` — slot `i` was found empty (`None => continue`);
`polledPending i` — the future in slot `i` was polled and returned
`Poll::Pending`;
`polledReady i` — the future in slot `i` was polled and returned
`Poll::Ready`. -/
inductive PollEvent where
  | popped (i : Nat)
  | skipped (i : Nat)
  | polledPending (i : Nat)
  | polledReady (i : Nat)
deriving DecidableEq

/-- Boolean test for a `polledReady` event. -/
def isReadyEvent : PollEvent → Bool
  | PollEvent.polledReady _ => true
  | _ => false

/-- Result of the driver loop: the `Poll` value produced, the final slot
array, the final ready set, and the trace of events performed. -/
structure LoopResult (α : Type) where
  result : Poll (Option α)
  inner : List (Option (Poll α))
  sparse : AtomicSparseSet
  trace : List PollEvent
deriving DecidableEq

/-- The `loop { match self.sparse.pop() { ... } }` of `poll_next`
(source lines 131-172), with futures modelled by the `Poll` outcome they
produce when polled in this call:
* `pop` returns `None`: `break Poll::Pending`;
* `pop` returns `Some(i)` but slot `i` is empty: `continue` (recorded as
  `skipped i`);
* slot `i` holds a future whose poll returns `Poll::Ready(x)`: clear the
  slot (`self.inner[i] = None`) and `break Poll::Ready(Some(x))`;
* slot `i` holds a future whose poll returns `Poll::Pending`: leave the
  slot as is and loop again.
Creating the bridging `InnerWaker` (source lines 151-157) allocates a
fresh object and mutates nothing, so it contributes no state change here;
its own behaviour is modelled by `InnerWaker.wake_by_ref` below. -/
def pollLoop {α : Type} (inner : List (Option (Poll α))) (s : AtomicSparseSet) :
    LoopResult α :=
  match hpop : s.pop with
  | (none, s1) => ⟨Poll.pending, inner, s1, []⟩
  | (some i, s1) =>
    match inner.getD i none with
    | none =>
      let r := pollLoop inner s1
      ⟨r.result, r.inner, r.sparse, PollEvent.popped i :: PollEvent.skipped i :: r.trace⟩
    | some Poll.pending =>
      let r := pollLoop inner s1
      ⟨r.result, r.inner, r.sparse,
        PollEvent.popped i :: PollEvent.polledPending i :: r.trace⟩
    | some (Poll.ready x) =>
      ⟨Poll.ready (some x), inner.set i none, s1,
        [PollEvent.popped i, PollEvent.polledReady i]⟩
termination_by s.len
decreasing_by
  all_goals
    simp only [AtomicSparseSet.pop] at hpop
    split at hpop
    · exact absurd hpop (by simp)
    · next hlen =>
        injection hpop with h1 h2
        subst h2
        simp only []
        omega

/-- Result of one `poll_next` call: the `Poll` value, the queue state
after the call, and the driver-loop trace. -/
structure PollNextResult (α : Type) where
  result : Poll (Option α)
  queue : ConcurrentProcessQueue (Poll α)
  trace : List PollEvent
deriving DecidableEq

/-- Embedding of `Stream::poll_next` for `ConcurrentProcessQueue` (source lines
127-173): if the count of occupied slots
(`self.inner.iter().filter_map(|x| x.as_ref()).count()`) is zero, return
`Poll::Ready(None)`; otherwise run the driver loop. -/
def ConcurrentProcessQueue.poll_next {α : Type} (q : ConcurrentProcessQueue (Poll α)) :
    PollNextResult α :=
  if (q.inner.filterMap id).length = 0 then ⟨Poll.ready none, q, []⟩
  else
    let r := pollLoop q.inner q.sparse
    ⟨r.result, ⟨r.inner, r.sparse⟩, r.trace⟩

/-- The bridging wake object (source lines 134-148): it captures the slot
index, a clone of the caller's waker, and the shared ready set.  The
captured waker and the shared set live in the surrounding `WakeState`;
the struct itself carries the slot index. -/
structure InnerWaker where
  index : Nat
deriving DecidableEq

/-- The environment a wake call acts on: the shared ready set (the
`Arc<AtomicSparseSet>` captured as `sparse`) and the number of times the
captured caller waker (`waker`) has been invoked. -/
structure WakeState where
  sparse : AtomicSparseSet
  callerWakes : Nat
deriving DecidableEq

/-- Observable effects of a wake call, in order of occurrence. -/
inductive WakeEvent where
  | pushedIndex (i : Nat)
  | wokeCaller
deriving DecidableEq

/-- Embedding of `InnerWaker::wake_by_ref` (source lines 144-147): first
`self.sparse.push(self.index)`, then `self.waker.wake_by_ref()`. -/
def InnerWaker.wake_by_ref (w : InnerWaker) (st : WakeState) :
    WakeState × List WakeEvent :=
  let st1 : WakeState := ⟨st.sparse.push w.index, st.callerWakes⟩
  let st2 : WakeState := ⟨st1.sparse, st1.callerWakes + 1⟩
  (st2, [WakeEvent.pushedIndex w.index, WakeEvent.wokeCaller])

/-- Embedding of `InnerWaker::wake` (source lines 140-142): delegates to
`wake_by_ref`. -/
def InnerWaker.wake (w : InnerWaker) (st : WakeState) : WakeState × List WakeEvent :=
  w.wake_by_ref st

/-- A sequentially reachable full ready set: the result of pushing
`0, 1, ..., 9` into the default state.  `dense = sparse = [0,...,9]`,
`len = 10`. -/
def fullSet : AtomicSparseSet :=
  ⟨[0, 1, 2, 3, 4, 5, 6, 7, 8, 9], [0, 1, 2, 3, 4, 5, 6, 7, 8, 9], 10⟩

/-- A (not sequentially reachable) state whose `len` field reads `BATCH`
while the fast-path test fails for index 1: all array entries are zero. -/
def staleFullSet : AtomicSparseSet :=
  ⟨List.replicate BATCH 0, List.replicate BATCH 0, 10⟩

/-- A ready set holding exactly the slot index 0: the value of
`AtomicSparseSet.init.push 0`. -/
def oneReadySet : AtomicSparseSet :=
  ⟨List.replicate BATCH 0, List.replicate BATCH 0, 1⟩

/-- The empty ready set with all-zero arrays: the value of
`(AtomicSparseSet.init.push 0).pop.2`. -/
def zeroReadySet : AtomicSparseSet :=
  ⟨List.replicate BATCH 0, List.replicate BATCH 0, 0⟩

/-- A queue whose slot 0 holds a future that completes with value 42 when
polled, with slot 0 marked ready. -/
def readyQueue : ConcurrentProcessQueue (Poll Nat) :=
  ⟨some (Poll.ready 42) :: List.replicate 9 none, oneReadySet⟩

/-- A queue whose slot 0 holds a future that is still pending when
polled, with slot 0 marked ready. -/
def pendingQueue : ConcurrentProcessQueue (Poll Nat) :=
  ⟨some Poll.pending :: List.replicate 9 none, oneReadySet⟩

/-- An all-empty slot array (every popped index would be stale). -/
def staleInner : List (Option (Poll Nat)) := List.replicate BATCH none

/-- A queue (over plain `Nat` payloads) with occupied slots 0 and 2 and
free slots elsewhere. -/
def twoFreeQueue : ConcurrentProcessQueue Nat :=
  ⟨[some 5, none, some 6, none, none, none, none, none, none, none],
    AtomicSparseSet.init⟩

/-- A queue (over plain `Nat` payloads) with every slot occupied. -/
def fullQueue : ConcurrentProcessQueue Nat :=
  ⟨List.replicate BATCH (some 0), AtomicSparseSet.init⟩

/-! ## Basic facts about the constants -/

/-- The constant `MASK` evaluates to 16. -/
theorem MASK_eq : MASK = 16 := by
  simp [MASK, BATCH, Nat.nextPowerOfTwo, Nat.nextPowerOfTwo.go]

/-- The constant `notMASK` is the 64-bit complement of `MASK`. -/
theorem notMASK_eq : notMASK = 2 ^ 64 - 1 - MASK := by
  simp [notMASK, MASK_eq]

/-- Masking with `!MASK` is the identity on values below `MASK`: only
bit 4 is cleared. -/
theorem land_notMASK {n : Nat} (h : n < 16) : n &&& notMASK = n := by
  interval_cases n <;> decide

/-! ## List access helpers -/

theorem getD_set_self {γ : Type} (l : List γ) (i : Nat) (v d : γ)
    (h : i < l.length) : (l.set i v).getD i d = v := by
  simp [List.getD_eq_getElem?_getD, List.getElem?_set_self h]

theorem getD_set_ne {γ : Type} (l : List γ) {i j : Nat} (v d : γ)
    (h : i ≠ j) : (l.set i v).getD j d = l.getD j d := by
  simp [List.getD_eq_getElem?_getD, List.getElem?_set_ne h]

/-! ## Unfolding lemmas for `AtomicSparseSet.push` and `pop` -/

namespace AtomicSparseSet

theorem push_of_ge (s : AtomicSparseSet) {x : Nat} (h : BATCH ≤ x) :
    s.push x = s := by
  simp [push, h]

theorem push_of_fast (s : AtomicSparseSet) {x : Nat} (hx : x < BATCH)
    (hf : s.FastPath x) : s.push x = s := by
  rw [push, if_neg (Nat.not_le.mpr hx)]
  simp only []
  rw [if_pos (show s.sparse.getD x 0 < (s.len &&& notMASK) ∧
    s.dense.getD (s.sparse.getD x 0) 0 = x from hf)]

theorem push_of_full (s : AtomicSparseSet) {x : Nat} (hx : x < BATCH)
    (hf : ¬ s.FastPath x) (hl : s.len = BATCH) :
    s.push x = ⟨s.dense, s.sparse, 0⟩ := by
  rw [push, if_neg (Nat.not_le.mpr hx)]
  simp only []
  rw [if_neg (by simpa [FastPath] using hf), if_pos hl]

theorem push_of_free (s : AtomicSparseSet) {x : Nat} (hx : x < BATCH)
    (hf : ¬ s.FastPath x) (hl : s.len ≠ BATCH) :
    s.push x = ⟨s.dense.set s.len x, s.sparse.set x s.len, s.len + 1⟩ := by
  rw [push, if_neg (Nat.not_le.mpr hx)]
  simp only []
  rw [if_neg (by simpa [FastPath] using hf), if_neg hl]

theorem pop_of_zero (s : AtomicSparseSet) (h : s.len = 0) :
    s.pop = (none, s) := by
  simp [pop, h]

theorem pop_of_pos (s : AtomicSparseSet) (h : s.len ≠ 0) :
    s.pop = (some (s.dense.getD (s.len - 1) 0), ⟨s.dense, s.sparse, s.len - 1⟩) := by
  simp [pop, h]

theorem pop_none_inv (s s1 : AtomicSparseSet) (h : s.pop = (none, s1)) :
    s.len = 0 ∧ s1 = s := by
  by_cases h0 : s.len = 0
  · rw [pop_of_zero s h0] at h
    exact ⟨h0, (Prod.mk.injEq _ _ _ _ |>.mp h).2.symm⟩
  · rw [pop_of_pos s h0] at h
    exact absurd (Prod.mk.injEq _ _ _ _ |>.mp h).1 (by simp)

theorem pop_some_inv (s s1 : AtomicSparseSet) (i : Nat) (h : s.pop = (some i, s1)) :
    s.len ≠ 0 ∧ i = s.dense.getD (s.len - 1) 0 ∧ s1 = ⟨s.dense, s.sparse, s.len - 1⟩ := by
  by_cases h0 : s.len = 0
  · rw [pop_of_zero s h0] at h
    exact absurd (Prod.mk.injEq _ _ _ _ |>.mp h).1 (by simp)
  · rw [pop_of_pos s h0] at h
    obtain ⟨h1, h2⟩ := Prod.mk.injEq _ _ _ _ |>.mp h
    exact ⟨h0, (Option.some.injEq _ _ |>.mp h1).symm, h2.symm⟩

/-! ## Well-formedness is preserved -/

theorem wf_init : AtomicSparseSet.init.WF := by decide

theorem wf_push (s : AtomicSparseSet) (x : Nat) (h : s.WF) : (s.push x).WF := by
  obtain ⟨hdl, hsl, hlen, hdb, hsb, hacc⟩ := h
  have hB : BATCH = 10 := rfl
  by_cases hx : BATCH ≤ x
  · rw [push_of_ge s hx]
    exact ⟨hdl, hsl, hlen, hdb, hsb, hacc⟩
  push_neg at hx
  by_cases hf : s.FastPath x
  · rw [push_of_fast s hx hf]
    exact ⟨hdl, hsl, hlen, hdb, hsb, hacc⟩
  by_cases hl : s.len = BATCH
  · rw [push_of_full s hx hf hl]
    exact ⟨hdl, hsl, by simp, hdb, hsb, by simp⟩
  · rw [push_of_free s hx hf hl]
    have hlb : s.len < BATCH := Nat.lt_of_le_of_ne hlen hl
    have hld : s.len < s.dense.length := by omega
    have hxs : x < s.sparse.length := by omega
    refine ⟨by simp [hdl], by simp [hsl], by simp only []; omega, ?_, ?_, ?_⟩
    · intro j hj
      simp only []
      by_cases hjl : s.len = j
      · rw [← hjl, getD_set_self _ _ _ _ hld]
        exact hx
      · rw [getD_set_ne _ _ _ hjl]
        exact hdb j hj
    · intro j hj
      simp only []
      by_cases hjx : x = j
      · rw [← hjx, getD_set_self _ _ _ _ hxs]
        exact hlb
      · rw [getD_set_ne _ _ _ hjx]
        exact hsb j hj
    · intro j hj
      simp only [] at hj ⊢
      by_cases hjl : j = s.len
      · subst hjl
        rw [getD_set_self _ _ _ _ hld, getD_set_self _ _ _ _ hxs]
      · have hjlt : j < s.len := by omega
        rw [getD_set_ne _ _ _ (fun hh => hjl hh.symm)]
        by_cases hvx : s.dense.getD j 0 = x
        · exfalso
          apply hf
          have hsx : s.sparse.getD x 0 = j := by
            rw [← hvx]
            exact hacc j hjlt
          refine ⟨?_, ?_⟩
          · rw [hsx, land_notMASK (by omega)]
            exact hjlt
          · rw [hsx]
            exact hvx
        · rw [getD_set_ne _ _ _ (fun hh => hvx hh.symm)]
          exact hacc j hjlt

theorem wf_pop (s : AtomicSparseSet) (h : s.WF) : s.pop.2.WF := by
  obtain ⟨hdl, hsl, hlen, hdb, hsb, hacc⟩ := h
  by_cases h0 : s.len = 0
  · rw [pop_of_zero s h0]
    exact ⟨hdl, hsl, hlen, hdb, hsb, hacc⟩
  · rw [pop_of_pos s h0]
    exact ⟨hdl, hsl, by simp only []; omega, hdb, hsb,
      fun j hj => hacc j (by simp only [] at hj; omega)⟩

theorem Reachable.wf {s : AtomicSparseSet} (h : s.Reachable) : s.WF := by
  induction h with
  | init => exact wf_init
  | push s x _ ih => exact wf_push s x ih
  | pop s _ ih => exact wf_pop s ih

/-- Under well-formedness the fast-path test of `push` succeeds exactly
for the indices currently live in `dense[0..len)`. -/
theorem fastPath_iff_live (s : AtomicSparseSet) (hwf : s.WF) (x : Nat)
    (hx : x < BATCH) :
    s.FastPath x ↔ ∃ j, j < s.len ∧ s.dense.getD j 0 = x := by
  obtain ⟨hdl, hsl, hlen, hdb, hsb, hacc⟩ := hwf
  have hB : BATCH = 10 := rfl
  have hland : s.len &&& notMASK = s.len := land_notMASK (by omega)
  constructor
  · rintro ⟨h1, h2⟩
    rw [hland] at h1
    exact ⟨s.sparse.getD x 0, h1, h2⟩
  · rintro ⟨j, hj, hji⟩
    have hsx : s.sparse.getD x 0 = j := by
      rw [← hji]
      exact hacc j hj
    exact ⟨by rw [hsx, hland]; exact hj, by rw [hsx]; exact hji⟩

/-- Under well-formedness the live region `dense[0..len)` has no
duplicate entries. -/
theorem wf_nodup (s : AtomicSparseSet) (hwf : s.WF) :
    (s.dense.take s.len).Nodup := by
  obtain ⟨hdl, hsl, hlen, hdb, hsb, hacc⟩ := hwf
  have hB : BATCH = 10 := rfl
  rw [List.nodup_iff_injective_get]
  intro a b hab
  have hla : (List.take s.len s.dense).length = s.len := by
    rw [List.length_take]
    omega
  have ha : (a : Nat) < s.len := by have h2 := a.2; omega
  have hb : (b : Nat) < s.len := by have h2 := b.2; omega
  have hga : (List.take s.len s.dense).get a = s.dense.getD (a : Nat) 0 := by
    rw [List.get_eq_getElem, List.getElem_take, List.getD_eq_getElem _ _ (by omega)]
  have hgb : (List.take s.len s.dense).get b = s.dense.getD (b : Nat) 0 := by
    rw [List.get_eq_getElem, List.getElem_take, List.getD_eq_getElem _ _ (by omega)]
  have h1 : s.dense.getD (a : Nat) 0 = s.dense.getD (b : Nat) 0 := by
    rw [← hga, ← hgb, hab]
  apply Fin.ext
  calc (a : Nat) = s.sparse.getD (s.dense.getD (a : Nat) 0) 0 := (hacc a ha).symm
    _ = s.sparse.getD (s.dense.getD (b : Nat) 0) 0 := by rw [h1]
    _ = (b : Nat) := hacc b hb

end AtomicSparseSet

/-! ## Claims about the sparse set -/

open AtomicSparseSet

/-- C1 counterexample: the claim asserts that in every state with
`count = BATCH` (claim bit clear), `push i` with `i < BATCH` resets the
set to empty.  `fullSet` — the sequentially reachable state obtained by
pushing `0,...,9` — has `len = BATCH`, yet `push 0` takes the fast path
(index 0 is live) and returns with the set untouched: `len` stays at
`BATCH`, not 0. -/
theorem c1_counterexample :
    fullSet.Reachable ∧ fullSet.len = BATCH ∧ (0 : Nat) < BATCH ∧
    fullSet.push 0 = fullSet ∧ (fullSet.push 0).len = BATCH := by
  refine ⟨?_, by decide, by decide, by decide, by decide⟩
  have h : ((((((((((AtomicSparseSet.init.push 0).push 1).push 2).push 3).push
      4).push 5).push 6).push 7).push 8).push 9) = fullSet := by decide
  rw [← h]
  exact Reachable.push _ 9 (Reachable.push _ 8 (Reachable.push _ 7
    (Reachable.push _ 6 (Reachable.push _ 5 (Reachable.push _ 4
    (Reachable.push _ 3 (Reachable.push _ 2 (Reachable.push _ 1
    (Reachable.push _ 0 Reachable.init)))))))))

/-- C1 (amended): for every ready-set state whose `len` word reads
`BATCH` (claim bit clear) and in which the fast-path presence test for
`i` fails (`¬(sparse[i] < (len & !MASK) ∧ dense[sparse[i]] = i)`), a call
to `push i` with `i < BATCH` resets the set to empty — `len` becomes 0,
discarding all previously-ready entries — and does not enqueue `i`: the
`dense` and `sparse` arrays are returned unchanged.  (The un-amended
claim, quantifying over all full states, is refuted by
`c1_counterexample`: when the fast path detects `i` as already present,
`push` returns without resetting.) -/
theorem c1_full_push_resets (s : AtomicSparseSet) (i : Nat) (hi : i < BATCH)
    (hlen : s.len = BATCH) (hfast : ¬ s.FastPath i) :
    s.push i = ⟨s.dense, s.sparse, 0⟩ :=
  push_of_full s hi hfast hlen

/-- Witness for C1 (amended) at the concrete state `staleFullSet` and
index 1: the fast-path test fails there, and the push resets the set. -/
theorem c1_witness :
    staleFullSet.push 1 = ⟨staleFullSet.dense, staleFullSet.sparse, 0⟩ :=
  c1_full_push_resets staleFullSet 1 (by decide) (by decide) (by decide)

/-- C2: in every sequentially reachable sparse-set state, each slot index
appears at most once in the live region `dense[0..len)` (the live prefix
is duplicate-free), and pushing an index that is already live leaves the
set completely unchanged. -/
theorem c2_no_duplicates (s : AtomicSparseSet) (h : s.Reachable) :
    (s.dense.take s.len).Nodup ∧
    ∀ i, (∃ j, j < s.len ∧ s.dense.getD j 0 = i) → s.push i = s := by
  have hwf := h.wf
  refine ⟨wf_nodup s hwf, ?_⟩
  rintro i ⟨j, hj, hji⟩
  have hi : i < BATCH :=
    hji ▸ hwf.2.2.2.1 j (lt_of_lt_of_le hj hwf.2.2.1)
  exact push_of_fast s hi ((fastPath_iff_live s hwf i hi).mpr ⟨j, hj, hji⟩)

/-- Witness for C2 at the reachable state `init.push 3`: its live prefix
is duplicate-free and re-pushing the live index 3 is a no-op. -/
theorem c2_witness :
    ((AtomicSparseSet.init.push 3).dense.take (AtomicSparseSet.init.push 3).len).Nodup ∧
    (AtomicSparseSet.init.push 3).push 3 = AtomicSparseSet.init.push 3 := by
  have h := c2_no_duplicates _ (Reachable.push _ 3 Reachable.init)
  exact ⟨h.1, h.2 3 ⟨0, by decide, by decide⟩⟩

/-- C3: with the claim bit clear, `pop` returns `none` and leaves the
(empty) set unchanged when `len = 0`; when `len > 0` it decrements `len`
and returns the entry at the old position `len - 1`, leaving both arrays
— in particular `dense[0..len-1)` — unchanged.  LIFO order: popping
right after a push that appended `x` returns `x` first. -/
theorem c3_pop_lifo (s : AtomicSparseSet) :
    (s.len = 0 → s.pop = (none, s)) ∧
    (0 < s.len → s.pop = (some (s.dense.getD (s.len - 1) 0),
      ⟨s.dense, s.sparse, s.len - 1⟩)) ∧
    (∀ x, x < BATCH → s.len < BATCH → s.dense.length = BATCH →
      ¬ s.FastPath x →
      (s.push x).pop = (some x, ⟨s.dense.set s.len x, s.sparse.set x s.len, s.len⟩)) := by
  refine ⟨fun h0 => pop_of_zero s h0, fun hpos => pop_of_pos s (by omega), ?_⟩
  intro x hx hlen hdl hfast
  rw [push_of_free s hx hfast (by omega)]
  rw [pop_of_pos _ (by simp)]
  simp only [Nat.add_sub_cancel]
  rw [getD_set_self _ _ _ _ (by omega)]

/-- Witness for C3 at the concrete two-element state obtained abstractly:
`pop` returns the most recently appended entry 5, and a fresh `push 7`
followed by `pop` returns 7 first. -/
theorem c3_witness :
    (AtomicSparseSet.mk [3,5,0,0,0,0,0,0,0,0] [0,0,0,0,0,1,0,0,0,0] 2).pop =
      (some 5, ⟨[3,5,0,0,0,0,0,0,0,0], [0,0,0,0,0,1,0,0,0,0], 1⟩) ∧
    ((AtomicSparseSet.mk [3,5,0,0,0,0,0,0,0,0] [0,0,0,0,0,1,0,0,0,0] 2).push 7).pop =
      (some 7, ⟨[3,5,7,0,0,0,0,0,0,0], [0,0,0,0,0,1,0,2,0,0], 2⟩) := by
  have h := c3_pop_lifo ⟨[3,5,0,0,0,0,0,0,0,0], [0,0,0,0,0,1,0,0,0,0], 2⟩
  exact ⟨h.2.1 (by decide), h.2.2 7 (by decide) (by decide) (by decide) (by decide)⟩

/-- C10: in every sequentially reachable sparse-set state, `push i` with
`i ≥ BATCH` is a no-op; the stored `len` (claim bit clear) never exceeds
`BATCH`; every value stored in `dense` — and in `sparse` — is below
`BATCH` while both arrays have length `BATCH`, so every array access the
code performs (`dense[sparse[x]]`, `sparse[x]`, `dense[len - 1]`,
`dense[len]`, and `inner[i]` for a popped `i` against the length-`BATCH`
slot array) is in bounds; and `pop` never returns an index `≥ BATCH`. -/
theorem c10_safety (s : AtomicSparseSet) (h : s.Reachable) :
    s.len ≤ BATCH ∧ s.dense.length = BATCH ∧ s.sparse.length = BATCH ∧
    (∀ x, BATCH ≤ x → s.push x = s) ∧
    (∀ j, j < BATCH → s.dense.getD j 0 < BATCH) ∧
    (∀ j, j < BATCH → s.sparse.getD j 0 < BATCH) ∧
    (∀ i s1, s.pop = (some i, s1) → i < BATCH) := by
  have hwf := h.wf
  obtain ⟨hdl, hsl, hlen, hdb, hsb, hacc⟩ := hwf
  have hB : BATCH = 10 := rfl
  refine ⟨hlen, hdl, hsl, fun x hx => push_of_ge s hx, hdb, hsb, ?_⟩
  intro i s1 hp
  obtain ⟨h0, hi, -⟩ := pop_some_inv s s1 i hp
  rw [hi]
  exact hdb (s.len - 1) (by omega)

/-- Witness for C10 at the reachable state `init.push 3`: an
out-of-range push is a no-op, `len` is within capacity, and the index
popped is below `BATCH`. -/
theorem c10_witness :
    (AtomicSparseSet.init.push 3).push 12 = AtomicSparseSet.init.push 3 ∧
    (AtomicSparseSet.init.push 3).len ≤ BATCH := by
  have h := c10_safety _ (Reachable.push _ 3 Reachable.init)
  exact ⟨h.2.2.2.1 12 (by decide), h.1⟩

/-! ## The driver loop: unfolding lemmas -/

theorem getLast?_cons_of_ne_nil {γ : Type} (a : γ) {l : List γ} (h : l ≠ []) :
    (a :: l).getLast? = l.getLast? := by
  cases l with
  | nil => exact absurd rfl h
  | cons b l' => exact List.getLast?_cons_cons

theorem getD_set_none {γ : Type} (l : List (Option γ)) (i : Nat) :
    (l.set i none).getD i none = none := by
  by_cases h : i < l.length
  · exact getD_set_self _ _ _ _ h
  · rw [List.set_eq_of_length_le (by omega), List.getD_eq_default _ _ (by omega)]

theorem pollLoop_pop_none {α : Type} (inner : List (Option (Poll α)))
    (s s1 : AtomicSparseSet) (h : s.pop = (none, s1)) :
    pollLoop inner s = ⟨Poll.pending, inner, s1, []⟩ := by
  rw [pollLoop]
  split
  · next heq =>
      rw [h] at heq
      injection heq with h1 h2
      rw [h2]
  · next i2 s2 heq =>
      rw [h] at heq
      exact absurd (Prod.mk.injEq _ _ _ _ |>.mp heq).1 (by simp)

theorem pollLoop_stale {α : Type} (inner : List (Option (Poll α)))
    (s s1 : AtomicSparseSet) (i : Nat)
    (h : s.pop = (some i, s1)) (hst : inner.getD i none = none) :
    pollLoop inner s = ⟨(pollLoop inner s1).result, (pollLoop inner s1).inner,
      (pollLoop inner s1).sparse,
      PollEvent.popped i :: PollEvent.skipped i :: (pollLoop inner s1).trace⟩ := by
  rw [pollLoop]
  split
  · next heq =>
      rw [h] at heq
      exact absurd (Prod.mk.injEq _ _ _ _ |>.mp heq).1 (by simp)
  · next i2 s2 heq =>
      rw [h] at heq
      injection heq with h1 h2
      injection h1 with h1
      subst h1
      subst h2
      rw [hst]

theorem pollLoop_pending {α : Type} (inner : List (Option (Poll α)))
    (s s1 : AtomicSparseSet) (i : Nat)
    (h : s.pop = (some i, s1)) (hp : inner.getD i none = some Poll.pending) :
    pollLoop inner s = ⟨(pollLoop inner s1).result, (pollLoop inner s1).inner,
      (pollLoop inner s1).sparse,
      PollEvent.popped i :: PollEvent.polledPending i :: (pollLoop inner s1).trace⟩ := by
  rw [pollLoop]
  split
  · next heq =>
      rw [h] at heq
      exact absurd (Prod.mk.injEq _ _ _ _ |>.mp heq).1 (by simp)
  · next i2 s2 heq =>
      rw [h] at heq
      injection heq with h1 h2
      injection h1 with h1
      subst h1
      subst h2
      rw [hp]

theorem pollLoop_ready {α : Type} (inner : List (Option (Poll α)))
    (s s1 : AtomicSparseSet) (i : Nat) (x : α)
    (h : s.pop = (some i, s1)) (hr : inner.getD i none = some (Poll.ready x)) :
    pollLoop inner s = ⟨Poll.ready (some x), inner.set i none, s1,
      [PollEvent.popped i, PollEvent.polledReady i]⟩ := by
  rw [pollLoop]
  split
  · next heq =>
      rw [h] at heq
      exact absurd (Prod.mk.injEq _ _ _ _ |>.mp heq).1 (by simp)
  · next i2 s2 heq =>
      rw [h] at heq
      injection heq with h1 h2
      injection h1 with h1
      subst h1
      subst h2
      rw [hr]

/-! ## The driver loop: behaviour lemmas (by strong induction on `len`) -/

theorem pollLoop_ne_ready_none_aux {α : Type} (inner : List (Option (Poll α))) :
    ∀ n (s : AtomicSparseSet), s.len = n →
      (pollLoop inner s).result ≠ Poll.ready none := by
  intro n
  induction n using Nat.strong_induction_on with
  | _ n ih =>
    intro s hn
    by_cases h0 : s.len = 0
    · rw [pollLoop_pop_none inner s s (pop_of_zero s h0)]
      simp
    · have hp := pop_of_pos s h0
      cases hin : inner.getD (s.dense.getD (s.len - 1) 0) none with
      | none =>
          rw [pollLoop_stale inner s _ _ hp hin]
          exact ih (s.len - 1) (by omega) _ rfl
      | some p =>
          cases p with
          | pending =>
              rw [pollLoop_pending inner s _ _ hp hin]
              exact ih (s.len - 1) (by omega) _ rfl
          | ready x =>
              rw [pollLoop_ready inner s _ _ x hp hin]
              simp

theorem pollLoop_ne_ready_none {α : Type} (inner : List (Option (Poll α)))
    (s : AtomicSparseSet) : (pollLoop inner s).result ≠ Poll.ready none :=
  pollLoop_ne_ready_none_aux inner s.len s rfl

theorem pollLoop_pending_spec_aux {α : Type} (inner : List (Option (Poll α))) :
    ∀ n (s : AtomicSparseSet), s.len = n →
      (pollLoop inner s).result = Poll.pending →
      (pollLoop inner s).inner = inner ∧ (pollLoop inner s).sparse.len = 0 ∧
      ∀ i, PollEvent.polledReady i ∉ (pollLoop inner s).trace := by
  intro n
  induction n using Nat.strong_induction_on with
  | _ n ih =>
    intro s hn hres
    by_cases h0 : s.len = 0
    · rw [pollLoop_pop_none inner s s (pop_of_zero s h0)]
      exact ⟨rfl, h0, by simp⟩
    · have hp := pop_of_pos s h0
      cases hin : inner.getD (s.dense.getD (s.len - 1) 0) none with
      | none =>
          rw [pollLoop_stale inner s _ _ hp hin] at hres ⊢
          obtain ⟨hA, hB, hC⟩ := ih (s.len - 1) (by omega) _ rfl hres
          refine ⟨hA, hB, ?_⟩
          intro i
          simp only [List.mem_cons]
          rintro (h | h | h)
          · exact PollEvent.noConfusion h
          · exact PollEvent.noConfusion h
          · exact hC i h
      | some p =>
          cases p with
          | pending =>
              rw [pollLoop_pending inner s _ _ hp hin] at hres ⊢
              obtain ⟨hA, hB, hC⟩ := ih (s.len - 1) (by omega) _ rfl hres
              refine ⟨hA, hB, ?_⟩
              intro i
              simp only [List.mem_cons]
              rintro (h | h | h)
              · exact PollEvent.noConfusion h
              · exact PollEvent.noConfusion h
              · exact hC i h
          | ready x =>
              rw [pollLoop_ready inner s _ _ x hp hin] at hres
              exact absurd hres (by simp)

theorem pollLoop_pending_spec {α : Type} (inner : List (Option (Poll α)))
    (s : AtomicSparseSet) (h : (pollLoop inner s).result = Poll.pending) :
    (pollLoop inner s).inner = inner ∧ (pollLoop inner s).sparse.len = 0 ∧
    ∀ i, PollEvent.polledReady i ∉ (pollLoop inner s).trace :=
  pollLoop_pending_spec_aux inner s.len s rfl h

theorem pollLoop_ready_result_aux {α : Type} (inner : List (Option (Poll α))) :
    ∀ n (s : AtomicSparseSet), s.len = n → ∀ x,
      (pollLoop inner s).result = Poll.ready (some x) →
      ∃ i, PollEvent.polledReady i ∈ (pollLoop inner s).trace := by
  intro n
  induction n using Nat.strong_induction_on with
  | _ n ih =>
    intro s hn x hres
    by_cases h0 : s.len = 0
    · rw [pollLoop_pop_none inner s s (pop_of_zero s h0)] at hres
      exact absurd hres (by simp)
    · have hp := pop_of_pos s h0
      cases hin : inner.getD (s.dense.getD (s.len - 1) 0) none with
      | none =>
          rw [pollLoop_stale inner s _ _ hp hin] at hres ⊢
          obtain ⟨i, hi⟩ := ih (s.len - 1) (by omega) _ rfl x hres
          exact ⟨i, by simp only [List.mem_cons]; exact Or.inr (Or.inr hi)⟩
      | some p =>
          cases p with
          | pending =>
              rw [pollLoop_pending inner s _ _ hp hin] at hres ⊢
              obtain ⟨i, hi⟩ := ih (s.len - 1) (by omega) _ rfl x hres
              exact ⟨i, by simp only [List.mem_cons]; exact Or.inr (Or.inr hi)⟩
          | ready y =>
              rw [pollLoop_ready inner s _ _ y hp hin]
              exact ⟨s.dense.getD (s.len - 1) 0, by simp⟩

theorem pollLoop_ready_result {α : Type} (inner : List (Option (Poll α)))
    (s : AtomicSparseSet) (x : α)
    (h : (pollLoop inner s).result = Poll.ready (some x)) :
    ∃ i, PollEvent.polledReady i ∈ (pollLoop inner s).trace :=
  pollLoop_ready_result_aux inner s.len s rfl x h

theorem pollLoop_trace_ready_aux {α : Type} (inner : List (Option (Poll α))) :
    ∀ n (s : AtomicSparseSet), s.len = n → ∀ i,
      PollEvent.polledReady i ∈ (pollLoop inner s).trace →
      ∃ x, inner.getD i none = some (Poll.ready x) ∧
        (pollLoop inner s).result = Poll.ready (some x) ∧
        (pollLoop inner s).inner = inner.set i none ∧
        (pollLoop inner s).trace.getLast? = some (PollEvent.polledReady i) ∧
        (pollLoop inner s).trace.countP isReadyEvent = 1 := by
  intro n
  induction n using Nat.strong_induction_on with
  | _ n ih =>
    intro s hn i hmem
    by_cases h0 : s.len = 0
    · rw [pollLoop_pop_none inner s s (pop_of_zero s h0)] at hmem
      exact absurd hmem (by simp)
    · have hp := pop_of_pos s h0
      cases hin : inner.getD (s.dense.getD (s.len - 1) 0) none with
      | none =>
          rw [pollLoop_stale inner s _ _ hp hin] at hmem ⊢
          simp only [List.mem_cons] at hmem
          rcases hmem with h | h | h
          · exact absurd h (by simp)
          · exact absurd h (by simp)
          · obtain ⟨x, h1, h2, h3, h4, h5⟩ := ih (s.len - 1) (by omega) _ rfl i h
            refine ⟨x, h1, h2, h3, ?_, ?_⟩
            · have hne : (pollLoop inner ⟨s.dense, s.sparse, s.len - 1⟩).trace ≠ [] :=
                List.ne_nil_of_mem h
              rw [getLast?_cons_of_ne_nil _ (by simp),
                getLast?_cons_of_ne_nil _ hne]
              exact h4
            · simp only [List.countP_cons, isReadyEvent]
              simpa using h5
      | some p =>
          cases p with
          | pending =>
              rw [pollLoop_pending inner s _ _ hp hin] at hmem ⊢
              simp only [List.mem_cons] at hmem
              rcases hmem with h | h | h
              · exact absurd h (by simp)
              · exact absurd h (by simp)
              · obtain ⟨x, h1, h2, h3, h4, h5⟩ := ih (s.len - 1) (by omega) _ rfl i h
                refine ⟨x, h1, h2, h3, ?_, ?_⟩
                · have hne : (pollLoop inner ⟨s.dense, s.sparse, s.len - 1⟩).trace ≠ [] :=
                    List.ne_nil_of_mem h
                  rw [getLast?_cons_of_ne_nil _ (by simp),
                    getLast?_cons_of_ne_nil _ hne]
                  exact h4
                · simp only [List.countP_cons, isReadyEvent]
                  simpa using h5
          | ready x =>
              rw [pollLoop_ready inner s _ _ x hp hin] at hmem ⊢
              simp only [List.mem_cons] at hmem
              rcases hmem with h | h | h
              · exact absurd h (by simp)
              · have hi : i = s.dense.getD (s.len - 1) 0 := by
                  injection h
                subst hi
                exact ⟨x, hin, rfl, rfl, by simp,
                  by simp [List.countP_cons, isReadyEvent]⟩
              · exact absurd h (by simp)

theorem pollLoop_trace_ready {α : Type} (inner : List (Option (Poll α)))
    (s : AtomicSparseSet) (i : Nat)
    (h : PollEvent.polledReady i ∈ (pollLoop inner s).trace) :
    ∃ x, inner.getD i none = some (Poll.ready x) ∧
      (pollLoop inner s).result = Poll.ready (some x) ∧
      (pollLoop inner s).inner = inner.set i none ∧
      (pollLoop inner s).trace.getLast? = some (PollEvent.polledReady i) ∧
      (pollLoop inner s).trace.countP isReadyEvent = 1 :=
  pollLoop_trace_ready_aux inner s.len s rfl i h

theorem pollLoop_polled_occupied_aux {α : Type} (inner : List (Option (Poll α))) :
    ∀ n (s : AtomicSparseSet), s.len = n → ∀ j,
      (PollEvent.polledPending j ∈ (pollLoop inner s).trace ∨
       PollEvent.polledReady j ∈ (pollLoop inner s).trace) →
      inner.getD j none ≠ none := by
  intro n
  induction n using Nat.strong_induction_on with
  | _ n ih =>
    intro s hn j hmem
    by_cases h0 : s.len = 0
    · rw [pollLoop_pop_none inner s s (pop_of_zero s h0)] at hmem
      rcases hmem with h | h <;> exact absurd h (by simp)
    · have hp := pop_of_pos s h0
      cases hin : inner.getD (s.dense.getD (s.len - 1) 0) none with
      | none =>
          rw [pollLoop_stale inner s _ _ hp hin] at hmem
          simp only [List.mem_cons] at hmem
          rcases hmem with (h | h | h) | (h | h | h)
          · exact absurd h (by simp)
          · exact absurd h (by simp)
          · exact ih (s.len - 1) (by omega) _ rfl j (Or.inl h)
          · exact absurd h (by simp)
          · exact absurd h (by simp)
          · exact ih (s.len - 1) (by omega) _ rfl j (Or.inr h)
      | some p =>
          cases p with
          | pending =>
              rw [pollLoop_pending inner s _ _ hp hin] at hmem
              simp only [List.mem_cons] at hmem
              rcases hmem with (h | h | h) | (h | h | h)
              · exact absurd h (by simp)
              · have hj : j = s.dense.getD (s.len - 1) 0 := by injection h
                rw [hj, hin]
                simp
              · exact ih (s.len - 1) (by omega) _ rfl j (Or.inl h)
              · exact absurd h (by simp)
              · exact absurd h (by simp)
              · exact ih (s.len - 1) (by omega) _ rfl j (Or.inr h)
          | ready x =>
              rw [pollLoop_ready inner s _ _ x hp hin] at hmem
              simp only [List.mem_cons] at hmem
              rcases hmem with (h | h | h) | (h | h | h)
              · exact absurd h (by simp)
              · exact absurd h (by simp)
              · exact absurd h (by simp)
              · exact absurd h (by simp)
              · have hj : j = s.dense.getD (s.len - 1) 0 := by injection h
                rw [hj, hin]
                simp
              · exact absurd h (by simp)

theorem pollLoop_polled_occupied {α : Type} (inner : List (Option (Poll α)))
    (s : AtomicSparseSet) (j : Nat)
    (h : PollEvent.polledPending j ∈ (pollLoop inner s).trace ∨
      PollEvent.polledReady j ∈ (pollLoop inner s).trace) :
    inner.getD j none ≠ none :=
  pollLoop_polled_occupied_aux inner s.len s rfl j h

/-! ## `poll_next` unfolding and slot-count lemmas -/

theorem poll_next_of_empty {α : Type} (q : ConcurrentProcessQueue (Poll α))
    (h : (q.inner.filterMap id).length = 0) :
    q.poll_next = ⟨Poll.ready none, q, []⟩ := by
  rw [ConcurrentProcessQueue.poll_next, if_pos h]

theorem poll_next_of_occupied {α : Type} (q : ConcurrentProcessQueue (Poll α))
    (h : ¬ (q.inner.filterMap id).length = 0) :
    q.poll_next = ⟨(pollLoop q.inner q.sparse).result,
      ⟨(pollLoop q.inner q.sparse).inner, (pollLoop q.inner q.sparse).sparse⟩,
      (pollLoop q.inner q.sparse).trace⟩ := by
  rw [ConcurrentProcessQueue.poll_next, if_neg h]

/-- The occupied-slot count computed by the source
(`inner.iter().filter_map(|x| x.as_ref()).count()`) is zero exactly when
every slot is empty. -/
theorem filterMap_id_zero_iff {γ : Type} (l : List (Option γ)) :
    (l.filterMap id).length = 0 ↔ ∀ j, j < l.length → l.getD j none = none := by
  induction l with
  | nil => simp
  | cons a l ih =>
    cases a with
    | none =>
      have hfm : List.filterMap id ((none : Option γ) :: l) = List.filterMap id l :=
        List.filterMap_cons_none rfl
      rw [hfm]
      constructor
      · intro h j hj
        cases j with
        | zero => simp [List.getD_cons_zero]
        | succ j2 =>
          rw [List.getD_cons_succ]
          exact (ih.mp h) j2 (by simpa using hj)
      · intro h
        apply ih.mpr
        intro j hj
        have h2 := h (j + 1) (by simpa using hj)
        rwa [List.getD_cons_succ] at h2
    | some v =>
      have hfm : List.filterMap id (some v :: l) = v :: List.filterMap id l :=
        List.filterMap_cons_some rfl
      rw [hfm]
      simp only [List.length_cons]
      constructor
      · intro h
        omega
      · intro h
        have h2 := h 0 (by simp)
        rw [List.getD_cons_zero] at h2
        exact absurd h2 (by simp)

/-! ## `firstNoneIdx` characterisation -/

theorem firstNoneIdx_some {F : Type} :
    ∀ (l : List (Option F)) (i : Nat), firstNoneIdx l = some i →
      i < l.length ∧ l.getD i none = none ∧
      ∀ j, j < i → l.getD j none ≠ none := by
  intro l
  induction l with
  | nil => intro i h; exact absurd h (by simp [firstNoneIdx])
  | cons a l ih =>
    intro i h
    rw [firstNoneIdx] at h
    by_cases ha : a.isNone
    · rw [if_pos ha] at h
      injection h with h
      subst h
      refine ⟨by simp, ?_, by omega⟩
      rw [List.getD_cons_zero]
      exact Option.isNone_iff_eq_none.mp ha
    · rw [if_neg ha] at h
      obtain ⟨i2, hi2, hii⟩ := Option.map_eq_some'.mp h
      subst hii
      obtain ⟨h1, h2, h3⟩ := ih i2 hi2
      refine ⟨by simp; omega, by rwa [List.getD_cons_succ], ?_⟩
      intro j hj
      cases j with
      | zero =>
        rw [List.getD_cons_zero]
        intro hno
        exact ha (Option.isNone_iff_eq_none.mpr hno)
      | succ j2 =>
        rw [List.getD_cons_succ]
        exact h3 j2 (by omega)

theorem firstNoneIdx_none {F : Type} :
    ∀ (l : List (Option F)), firstNoneIdx l = none →
      ∀ j, j < l.length → l.getD j none ≠ none := by
  intro l
  induction l with
  | nil => intro _ j hj; simp at hj
  | cons a l ih =>
    intro h j hj
    rw [firstNoneIdx] at h
    by_cases ha : a.isNone
    · rw [if_pos ha] at h
      exact absurd h (by simp)
    · rw [if_neg ha] at h
      have h2 := Option.map_eq_none'.mp h
      cases j with
      | zero =>
        rw [List.getD_cons_zero]
        intro hno
        exact ha (Option.isNone_iff_eq_none.mpr hno)
      | succ j2 =>
        rw [List.getD_cons_succ]
        exact ih h2 j2 (by simpa using hj)

/-! ## Remaining claims -/

/-- C4: `ConcurrentProcessQueue::push(task)` stores the task in the
lowest-index empty slot and pushes that slot index into the ready set;
when no slot is empty the call leaves the queue — slots and ready set —
completely unchanged and the task is discarded (the source function
returns `()`, so the caller gets no signal of rejection). -/
theorem c4_push_lowest_free {F : Type} (q : ConcurrentProcessQueue F) (fut : F) :
    ((∃ j, j < q.inner.length ∧ q.inner.getD j none = none) →
      ∃ i, i < q.inner.length ∧ q.inner.getD i none = none ∧
        (∀ j, j < i → q.inner.getD j none ≠ none) ∧
        q.push fut = ⟨q.inner.set i (some fut), q.sparse.push i⟩) ∧
    ((∀ j, j < q.inner.length → q.inner.getD j none ≠ none) → q.push fut = q) := by
  constructor
  · rintro ⟨j, hj, hnone⟩
    cases hfi : firstNoneIdx q.inner with
    | none => exact absurd hnone (firstNoneIdx_none q.inner hfi j hj)
    | some i =>
      obtain ⟨h1, h2, h3⟩ := firstNoneIdx_some q.inner i hfi
      refine ⟨i, h1, h2, h3, ?_⟩
      rw [ConcurrentProcessQueue.push, hfi]
  · intro hall
    cases hfi : firstNoneIdx q.inner with
    | none => rw [ConcurrentProcessQueue.push, hfi]
    | some i =>
      obtain ⟨h1, h2, -⟩ := firstNoneIdx_some q.inner i hfi
      exact absurd h2 (hall i h1)

/-- Witness for C4: on `twoFreeQueue` (slots 0 and 2 occupied) pushing 9
fills slot 1 — the lowest free slot — and marks it ready; on `fullQueue`
(all slots occupied) the push is a no-op. -/
theorem c4_witness :
    twoFreeQueue.push 9 =
      ⟨[some 5, some 9, some 6, none, none, none, none, none, none, none],
        AtomicSparseSet.init.push 1⟩ ∧
    fullQueue.push 9 = fullQueue := by
  have h := c4_push_lowest_free twoFreeQueue 9
  obtain ⟨i, hi, hnone, hleast, heq⟩ := h.1 ⟨1, by decide, by decide⟩
  have h1 : ¬ (1 < i) := fun hh => hleast 1 hh (by decide)
  have h0 : i ≠ 0 := by
    intro hh
    rw [hh] at hnone
    exact absurd hnone (by decide)
  have hi1 : i = 1 := by omega
  subst hi1
  refine ⟨heq, ?_⟩
  exact (c4_push_lowest_free fullQueue 9).2 (by decide)

/-- C5: `poll_next` returns `Poll::Ready(None)` (end-of-sequence) exactly
when every slot is empty at the start of the call; in that case the queue
state is unchanged, so every subsequent call — any number of iterations
later, absent a new push — again returns `Poll::Ready(None)` and never
produces a value. -/
theorem c5_end_of_sequence {α : Type} (q : ConcurrentProcessQueue (Poll α)) :
    (q.poll_next.result = Poll.ready none ↔
      ∀ j, j < q.inner.length → q.inner.getD j none = none) ∧
    ((∀ j, j < q.inner.length → q.inner.getD j none = none) →
      q.poll_next.queue = q) ∧
    (∀ n, (∀ j, j < q.inner.length → q.inner.getD j none = none) →
      ((fun qq : ConcurrentProcessQueue (Poll α) =>
        qq.poll_next.queue)^[n] q).poll_next.result = Poll.ready none) := by
  have hiff := filterMap_id_zero_iff q.inner
  refine ⟨⟨?_, ?_⟩, ?_, ?_⟩
  · intro hres
    by_cases h : (q.inner.filterMap id).length = 0
    · exact hiff.mp h
    · rw [poll_next_of_occupied q h] at hres
      exact absurd hres (pollLoop_ne_ready_none _ _)
  · intro hall
    rw [poll_next_of_empty q (hiff.mpr hall)]
  · intro hall
    rw [poll_next_of_empty q (hiff.mpr hall)]
  · intro n hall
    have hfix : (fun qq : ConcurrentProcessQueue (Poll α) =>
        qq.poll_next.queue) q = q := by
      simp only []
      rw [poll_next_of_empty q (hiff.mpr hall)]
    rw [Function.iterate_fixed hfix n,
      poll_next_of_empty q (hiff.mpr hall)]

/-- Witness for C5 at the freshly constructed (all-empty) queue: the call
signals end-of-sequence, leaves the queue unchanged, and still signals
end-of-sequence three iterated calls later. -/
theorem c5_witness :
    (ConcurrentProcessQueue.new (Poll Nat)).poll_next.result = Poll.ready none ∧
    (ConcurrentProcessQueue.new (Poll Nat)).poll_next.queue =
      ConcurrentProcessQueue.new (Poll Nat) ∧
    ((fun qq : ConcurrentProcessQueue (Poll Nat) =>
      qq.poll_next.queue)^[3] (ConcurrentProcessQueue.new (Poll Nat))).poll_next.result =
      Poll.ready none := by
  have h := c5_end_of_sequence (ConcurrentProcessQueue.new (Poll Nat))
  have hall : ∀ j, j < (ConcurrentProcessQueue.new (Poll Nat)).inner.length →
      (ConcurrentProcessQueue.new (Poll Nat)).inner.getD j none = none := by decide
  exact ⟨h.1.mpr hall, h.2.1 hall, h.2.2 3 hall⟩

/-- C6: if during one `poll_next` call the polled future in slot `i`
yields a value (`polledReady i` occurs in the trace), then that slot held
a ready future, the call returns exactly that value, the returned queue
has slot `i` cleared (set to empty) while all other slots are as before
(`inner.set i none`), the `polledReady` event is the last event of the
call — nothing further is popped or polled after the value is obtained —
and it is the only value-yielding poll of the call (one call produces at
most one value). -/
theorem c6_one_value_per_call {α : Type} (q : ConcurrentProcessQueue (Poll α))
    (i : Nat) (h : PollEvent.polledReady i ∈ q.poll_next.trace) :
    ∃ x, q.inner.getD i none = some (Poll.ready x) ∧
      q.poll_next.result = Poll.ready (some x) ∧
      q.poll_next.queue.inner = q.inner.set i none ∧
      q.poll_next.queue.inner.getD i none = none ∧
      q.poll_next.trace.getLast? = some (PollEvent.polledReady i) ∧
      q.poll_next.trace.countP isReadyEvent = 1 := by
  by_cases hocc : (q.inner.filterMap id).length = 0
  · rw [poll_next_of_empty q hocc] at h
    exact absurd h (by simp)
  · rw [poll_next_of_occupied q hocc] at h ⊢
    obtain ⟨x, h1, h2, h3, h4, h5⟩ := pollLoop_trace_ready q.inner q.sparse i h
    refine ⟨x, h1, h2, h3, ?_, h4, h5⟩
    show (pollLoop q.inner q.sparse).inner.getD i none = none
    rw [h3]
    exact getD_set_none _ _

/-- Witness for C6 at `readyQueue`: polling pops slot 0, whose future
completes with 42; the slot is cleared and the call returns the value. -/
theorem c6_witness :
    ∃ x, readyQueue.inner.getD 0 none = some (Poll.ready x) ∧
      readyQueue.poll_next.result = Poll.ready (some x) ∧
      readyQueue.poll_next.queue.inner = readyQueue.inner.set 0 none ∧
      readyQueue.poll_next.queue.inner.getD 0 none = none ∧
      readyQueue.poll_next.trace.getLast? = some (PollEvent.polledReady 0) ∧
      readyQueue.poll_next.trace.countP isReadyEvent = 1 :=
  c6_one_value_per_call readyQueue 0 (by
    rw [poll_next_of_occupied readyQueue (by decide),
      pollLoop_ready readyQueue.inner readyQueue.sparse zeroReadySet 0 42
        (by decide) (by decide)]
    simp)

/-- C7: whenever `pop` returns an index `i` whose slot is empty, the
driver loop records the pop and the skip and continues as the loop run
from the popped state: the final result, slot array, and ready set are
those of the continuation (the stale index neither terminates the call
nor changes any slot), and no index is ever polled — as pending or as
ready — unless its slot is occupied. -/
theorem c7_stale_skipped {α : Type} (inner : List (Option (Poll α)))
    (s s1 : AtomicSparseSet) (i : Nat)
    (hpop : s.pop = (some i, s1)) (hstale : inner.getD i none = none) :
    pollLoop inner s = ⟨(pollLoop inner s1).result, (pollLoop inner s1).inner,
      (pollLoop inner s1).sparse,
      PollEvent.popped i :: PollEvent.skipped i :: (pollLoop inner s1).trace⟩ ∧
    ∀ j, (PollEvent.polledPending j ∈ (pollLoop inner s).trace ∨
      PollEvent.polledReady j ∈ (pollLoop inner s).trace) →
      inner.getD j none ≠ none :=
  ⟨pollLoop_stale inner s s1 i hpop hstale,
   fun j hj => pollLoop_polled_occupied inner s j hj⟩

/-- Witness for C7: with all slots empty and index 0 (stale) in the ready
set, the loop skips index 0 and continues from the emptied ready set. -/
theorem c7_witness :
    pollLoop staleInner oneReadySet =
      ⟨(pollLoop staleInner zeroReadySet).result,
        (pollLoop staleInner zeroReadySet).inner,
        (pollLoop staleInner zeroReadySet).sparse,
        PollEvent.popped 0 :: PollEvent.skipped 0 ::
          (pollLoop staleInner zeroReadySet).trace⟩ ∧
    ∀ j, (PollEvent.polledPending j ∈ (pollLoop staleInner oneReadySet).trace ∨
      PollEvent.polledReady j ∈ (pollLoop staleInner oneReadySet).trace) →
      staleInner.getD j none ≠ none :=
  c7_stale_skipped staleInner oneReadySet zeroReadySet 0 (by decide) (by decide)

/-- C8: on a queue with at least one occupied slot, if no poll during the
call yields a value (no `polledReady` event in the trace), the call
returns `Poll::Pending`, every slot's occupancy is exactly as before the
call, and the ready set has been fully drained (`len = 0`: the loop ended
because `pop` returned `None`). -/
theorem c8_pending_exhausts {α : Type} (q : ConcurrentProcessQueue (Poll α))
    (hocc : ¬ (q.inner.filterMap id).length = 0)
    (hnoval : ∀ i, PollEvent.polledReady i ∉ q.poll_next.trace) :
    q.poll_next.result = Poll.pending ∧ q.poll_next.queue.inner = q.inner ∧
    q.poll_next.queue.sparse.len = 0 := by
  have hocc2 := poll_next_of_occupied q hocc
  rw [hocc2] at hnoval
  cases hres : (pollLoop q.inner q.sparse).result with
  | pending =>
      obtain ⟨hA, hB, hC⟩ := pollLoop_pending_spec q.inner q.sparse hres
      rw [hocc2]
      exact ⟨hres, hA, hB⟩
  | ready v =>
      cases v with
      | none => exact absurd hres (pollLoop_ne_ready_none _ _)
      | some x =>
          obtain ⟨i, hi⟩ := pollLoop_ready_result q.inner q.sparse x hres
          exact absurd hi (hnoval i)

/-- Witness for C8 at `pendingQueue`: slot 0 is occupied by a future that
stays pending, so the call suspends, leaves slot 0 occupied, and drains
the ready set. -/
theorem c8_witness :
    pendingQueue.poll_next.result = Poll.pending ∧
    pendingQueue.poll_next.queue.inner = pendingQueue.inner ∧
    pendingQueue.poll_next.queue.sparse.len = 0 := by
  have htr : pendingQueue.poll_next.trace =
      [PollEvent.popped 0, PollEvent.polledPending 0] := by
    rw [poll_next_of_occupied pendingQueue (by decide),
      pollLoop_pending pendingQueue.inner pendingQueue.sparse zeroReadySet 0
        (by decide) (by decide),
      pollLoop_pop_none pendingQueue.inner zeroReadySet zeroReadySet (by decide)]
  exact c8_pending_exhausts pendingQueue (by decide) (by
    intro i
    rw [htr]
    simp)

/-- C9: invoking the bridging wake object — through `wake_by_ref` or
through `wake`, which delegates to it — always performs both effects, in
order: first the captured slot index is pushed into the shared ready set,
then the captured caller waker is invoked (its invocation count rises by
one); the event list records the push strictly before the caller wake. -/
theorem c9_wake_pushes_then_wakes (w : InnerWaker) (st : WakeState) :
    (w.wake_by_ref st).1.sparse = st.sparse.push w.index ∧
    (w.wake_by_ref st).1.callerWakes = st.callerWakes + 1 ∧
    (w.wake_by_ref st).2 = [WakeEvent.pushedIndex w.index, WakeEvent.wokeCaller] ∧
    w.wake st = w.wake_by_ref st :=
  ⟨rfl, rfl, rfl, rfl⟩

end FuturesBuffered
